import Mathlib

/-!
Verification of the term highlighter `processContent` from
`src/components/ui/card.jsx` of the financial-advisor app.

The JavaScript source (lines 20-63) is:

    const processContent = (text) => {
      if (!text) return [];
      const parts = [];
      let currentPos = 0;
      const terms = Object.keys(definitions).sort((a, b) => b.length - a.length);
      const regex = new RegExp(`\\b(${terms.join('|')})\\b`, 'gi');
      const matches = [...text.matchAll(regex)];
      matches.forEach((match) => {
        const term = match[0];
        const startPos = match.index;
        if (startPos > currentPos) {
          parts.push({ type: 'text', content: text.slice(currentPos, startPos) });
        }
        parts.push({ type: 'term', content: term,
                     definition: definitions[term.toLowerCase()] });
        currentPos = startPos + term.length;
      });
      if (currentPos < text.length) {
        parts.push({ type: 'text', content: text.slice(currentPos) });
      }
      return parts;
    };

We embed this in Lean over `List Char`.  The regular expression
`\b(t1|t2|...|tn)\b` with flags `gi` is modelled for literal terms
(terms with no regex metacharacters, which is the faithful reading of the
source since the keys are embedded unescaped):

* `\b` holds at position `i` iff exactly one of the character before and
  the character at `i` is a word character (`[A-Za-z0-9_]`);
* an alternative matches at `i` iff the term's characters equal the text's
  characters at `i` case-insensitively, with `\b` holding at both ends;
* the engine scans for the leftmost match position, trying alternatives in
  the order they appear in the alternation;
* `matchAll` collects non-overlapping matches left to right; after an
  empty match the scan position advances by one (JS lastIndex bump),
  after a non-empty match it resumes at the match end.

When `Object.keys(definitions)` is empty, `terms.join('|')` is the empty
string and the compiled regex is `\b()\b`, whose single alternative is the
empty pattern: this is modelled by `alternation`, which maps the empty term
list to the one-element list containing the empty term.
-/

namespace Advisor

/-- Word character of the JavaScript regex `\b` semantics: `[A-Za-z0-9_]`. -/
def isWordChar (c : Char) : Bool :=
  decide (('a' ≤ c ∧ c ≤ 'z') ∨ ('A' ≤ c ∧ c ≤ 'Z') ∨ ('0' ≤ c ∧ c ≤ '9') ∨ c = '_')

/-- Whether the character at position `i` of `text` is a word character
(`false` out of range). -/
def wordAt (text : List Char) (i : Nat) : Bool :=
  match text.get? i with
  | some c => isWordChar c
  | none => false

/-- JavaScript `\b`: a word boundary holds at position `i` (between the
character at `i - 1` and the character at `i`) iff exactly one side is a
word character; out-of-range sides count as non-word. -/
def boundary (text : List Char) (i : Nat) : Bool :=
  (if i = 0 then false else wordAt text (i - 1)) != wordAt text i

/-- Case-insensitive "the first list is a character-wise prefix of the
second", comparing via `Char.toLower` (the ASCII fragment of the regex
`i` flag). -/
def ciStarts : List Char → List Char → Bool
  | [], _ => true
  | _ :: _, [] => false
  | c :: cs, d :: ds => (c.toLower == d.toLower) && ciStarts cs ds

/-- One alternative `t` of the alternation matches at position `i` of
`text`: characters agree case-insensitively and `\b` holds at both ends. -/
def matchesAt (text : List Char) (i : Nat) (t : List Char) : Bool :=
  ciStarts t (text.drop i) && boundary text i && boundary text (i + t.length)

/-- First alternative (in alternation order) that matches at position `i`. -/
def firstAlt (text : List Char) (i : Nat) : List (List Char) → Option (List Char)
  | [] => none
  | t :: ts => if matchesAt text i t then some t else firstAlt text i ts

/-- Scan positions `i, i+1, ...` (at most `fuel` of them) for the leftmost
position where some alternative matches. -/
def findFromAux (text : List Char) (alts : List (List Char)) :
    Nat → Nat → Option (Nat × List Char)
  | 0, _ => none
  | fuel + 1, i =>
    match firstAlt text i alts with
    | some t => some (i, t)
    | none => findFromAux text alts fuel (i + 1)

/-- Leftmost match at a position in `[p, text.length]`, as the regex engine
finds it when `lastIndex = p`. -/
def findFrom (text : List Char) (alts : List (List Char)) (p : Nat) :
    Option (Nat × List Char) :=
  findFromAux text alts (text.length + 1 - p) p

/-- The `matchAll` loop: collect non-overlapping matches left to right,
recording `(match.index, match[0])`; after an empty match the scan position
advances by one (JS bumps `lastIndex` to avoid looping), otherwise it
resumes at the end of the match. -/
def scanAux (text : List Char) (alts : List (List Char)) :
    Nat → Nat → List (Nat × List Char)
  | 0, _ => []
  | fuel + 1, p =>
    match findFrom text alts p with
    | none => []
    | some (i, t) =>
      (i, (text.drop i).take t.length) ::
        scanAux text alts fuel (if t.length = 0 then i + 1 else i + t.length)

/-- `[...text.matchAll(regex)]` as the list of `(index, matched text)`. -/
def scan (text : List Char) (alts : List (List Char)) : List (Nat × List Char) :=
  scanAux text alts (text.length + 2) 0

/-- Output segments: `{type: 'text', content}` and
`{type: 'term', content, definition}` (the definition is `none` when the
JS property lookup yields `undefined`). -/
inductive Segment where
  | text : List Char → Segment
  | term : List Char → Option (List Char) → Segment
deriving DecidableEq, Repr

/-- JS property lookup `definitions[key]` on the definitions object,
modelled as first-match lookup in an association list whose order is the
object's key order. -/
def lookupDef : List (List Char × List Char) → List Char → Option (List Char)
  | [], _ => none
  | (k, v) :: rest, key => if k = key then some v else lookupDef rest key

/-- The `matches.forEach` loop plus the trailing-text push: build the parts
list from the match list, starting at `currentPos`. -/
def buildParts (text : List Char) (defs : List (List Char × List Char)) :
    List (Nat × List Char) → Nat → List Segment
  | [], currentPos =>
    if currentPos < text.length then [Segment.text (text.drop currentPos)] else []
  | (i, content) :: rest, currentPos =>
    (if currentPos < i then
        [Segment.text ((text.drop currentPos).take (i - currentPos))]
      else []) ++
      Segment.term content (lookupDef defs (content.map Char.toLower)) ::
        buildParts text defs rest (i + content.length)

/-- Stable insertion for descending length order: `x` is placed after every
earlier element of equal or greater length, matching the stable JS
`sort((a, b) => b.length - a.length)`. -/
def insertByLen (x : List Char) : List (List Char) → List (List Char)
  | [] => [x]
  | y :: ys => if y.length ≤ x.length then x :: y :: ys else y :: insertByLen x ys

/-- `Object.keys(definitions).sort((a, b) => b.length - a.length)`:
stable sort by length, longest first. -/
def sortByLenDesc : List (List Char) → List (List Char)
  | [] => []
  | x :: xs => insertByLen x (sortByLenDesc xs)

/-- Alternatives of the compiled group `(${terms.join('|')})`: joining the
empty list gives the empty pattern, a single alternative matching the empty
string; otherwise the alternatives are the terms in order. -/
def alternation (terms : List (List Char)) : List (List Char) :=
  if terms.isEmpty then [[]] else terms

/-- The highlighter `processContent` of `card.jsx`, as a function of the
text and the definitions object (an association list in key order). -/
def processContent (text : List Char) (defs : List (List Char × List Char)) :
    List Segment :=
  if text.isEmpty then []
  else
    buildParts text defs
      (scan text (alternation (sortByLenDesc (defs.map Prod.fst)))) 0

/-- `content` field of a segment. -/
def contentOf : Segment → List Char
  | .text c => c
  | .term c _ => c

/-- Concatenation of the `content` fields of a segment sequence. -/
def contentConcat : List Segment → List Char
  | [] => []
  | s :: rest => contentOf s ++ contentConcat rest

/-- `terms.join('|')` on the sorted key list. -/
def joinBar : List (List Char) → List Char
  | [] => []
  | [t] => t
  | t :: ts => t ++ '|' :: joinBar ts

/-- The regex source string `` `\\b(${terms.join('|')})\\b` `` built at
line 29 of `card.jsx` (keys embedded unescaped). -/
def patternString (terms : List (List Char)) : List Char :=
  String.toList "\\b(" ++ joinBar terms ++ String.toList ")\\b"

/-- Parenthesis balance of a regex source (a backslash escapes the next
character); a pattern whose groups do not balance is rejected by the
regex compiler. -/
def parenOk : List Char → Nat → Bool
  | [], d => d == 0
  | '\\' :: _ :: rest, d => parenOk rest d
  | '(' :: rest, d => parenOk rest (d + 1)
  | ')' :: rest, d =>
    match d with
    | 0 => false
    | d' + 1 => parenOk rest d'
  | _ :: rest, d => parenOk rest d

/-- A regex source compiles only if its unescaped parentheses balance. -/
def patternValid (p : List Char) : Bool := parenOk p 0

/-- Matches found from position `cur` are well-placed: each starts at or
after the running position, fits inside the text, its recorded content is
the exact slice of the text it covers, and the rest are well-placed from
its end. -/
def validFrom (text : List Char) : Nat → List (Nat × List Char) → Prop
  | _, [] => True
  | cur, (i, c) :: rest =>
    cur ≤ i ∧ i + c.length ≤ text.length ∧ c = (text.drop i).take c.length ∧
      validFrom text (i + c.length) rest

theorem ciStarts_length (t : List Char) :
    ∀ s : List Char, ciStarts t s = true → t.length ≤ s.length := by
  induction t with
  | nil => intro s _; exact Nat.zero_le _
  | cons c cs ih =>
    intro s h
    cases s with
    | nil => simp [ciStarts] at h
    | cons d ds =>
      simp only [ciStarts, Bool.and_eq_true] at h
      exact Nat.succ_le_succ (ih ds h.2)

theorem matchesAt_ci {text : List Char} {i : Nat} {t : List Char}
    (h : matchesAt text i t = true) : ciStarts t (text.drop i) = true := by
  simp only [matchesAt, Bool.and_eq_true] at h
  exact h.1.1

theorem firstAlt_sound (text : List Char) (i : Nat) :
    ∀ (alts : List (List Char)) (t : List Char),
      firstAlt text i alts = some t → matchesAt text i t = true := by
  intro alts
  induction alts with
  | nil => intro t h; exact absurd h (by simp [firstAlt])
  | cons a as ih =>
    intro t h
    unfold firstAlt at h
    split at h
    · injection h with h'
      subst h'
      assumption
    · exact ih t h

theorem findFromAux_sound (text : List Char) (alts : List (List Char)) :
    ∀ (fuel i j : Nat) (t : List Char),
      findFromAux text alts fuel i = some (j, t) →
      i ≤ j ∧ j < i + fuel ∧ matchesAt text j t = true := by
  intro fuel
  induction fuel with
  | zero => intro i j t h; exact absurd h (by simp [findFromAux])
  | succ f ih =>
    intro i j t h
    unfold findFromAux at h
    cases hfa : firstAlt text i alts with
    | some u =>
      rw [hfa] at h
      injection h with h'
      injection h' with h1 h2
      subst h1; subst h2
      exact ⟨Nat.le_refl _, by omega, firstAlt_sound text i alts _ hfa⟩
    | none =>
      rw [hfa] at h
      obtain ⟨h1, h2, h3⟩ := ih (i + 1) j t h
      exact ⟨by omega, by omega, h3⟩

theorem findFrom_sound (text : List Char) (alts : List (List Char))
    (p j : Nat) (t : List Char) (h : findFrom text alts p = some (j, t)) :
    p ≤ j ∧ j ≤ text.length ∧ matchesAt text j t = true := by
  obtain ⟨h1, h2, h3⟩ := findFromAux_sound text alts _ p j t h
  exact ⟨h1, by omega, h3⟩

theorem validFrom_mono (text : List Char) :
    ∀ (ms : List (Nat × List Char)) (p p' : Nat),
      p ≤ p' → validFrom text p' ms → validFrom text p ms := by
  intro ms
  cases ms with
  | nil => intro p p' _ _; trivial
  | cons hd tl =>
    obtain ⟨i, c⟩ := hd
    intro p p' hle hv
    obtain ⟨h1, h2, h3, h4⟩ := hv
    exact ⟨Nat.le_trans hle h1, h2, h3, h4⟩

theorem scanAux_valid (text : List Char) (alts : List (List Char)) :
    ∀ (fuel p : Nat), validFrom text p (scanAux text alts fuel p) := by
  intro fuel
  induction fuel with
  | zero => intro p; simp only [scanAux]; trivial
  | succ f ih =>
    intro p
    simp only [scanAux]
    cases hf : findFrom text alts p with
    | none => trivial
    | some it =>
      obtain ⟨i, t⟩ := it
      obtain ⟨hpi, hil, hm⟩ := findFrom_sound text alts p i t hf
      have hlen : t.length ≤ (text.drop i).length :=
        ciStarts_length t _ (matchesAt_ci hm)
      rw [List.length_drop] at hlen
      have hcl : ((text.drop i).take t.length).length = t.length := by
        rw [List.length_take, List.length_drop]; omega
      refine ⟨hpi, ?_, ?_, ?_⟩
      · rw [hcl]; omega
      · rw [hcl]
      · rw [hcl]
        by_cases h0 : t.length = 0
        · rw [if_pos h0, h0, Nat.add_zero]
          exact validFrom_mono text _ i (i + 1) (Nat.le_succ i) (ih (i + 1))
        · rw [if_neg h0]
          exact ih (i + t.length)

theorem contentConcat_append (xs ys : List Segment) :
    contentConcat (xs ++ ys) = contentConcat xs ++ contentConcat ys := by
  induction xs with
  | nil => simp [contentConcat]
  | cons s ss ih => simp [contentConcat, ih, List.append_assoc]

theorem drop_eq_take_append (text : List Char) (cur i : Nat) (hci : cur ≤ i) :
    text.drop cur = (text.drop cur).take (i - cur) ++ text.drop i := by
  conv_lhs => rw [← List.take_append_drop (i - cur) (text.drop cur)]
  rw [List.drop_drop, Nat.add_sub_cancel' hci]

theorem drop_eq_content_append (text : List Char) (i : Nat) (c : List Char)
    (hceq : c = (text.drop i).take c.length) :
    text.drop i = c ++ text.drop (i + c.length) :=
  calc text.drop i
      = (text.drop i).take c.length ++ (text.drop i).drop c.length :=
        (List.take_append_drop _ _).symm
    _ = c ++ text.drop (i + c.length) := by
        rw [← hceq, List.drop_drop]

theorem buildParts_concat (text : List Char) (defs : List (List Char × List Char)) :
    ∀ (ms : List (Nat × List Char)) (cur : Nat),
      validFrom text cur ms →
      contentConcat (buildParts text defs ms cur) = text.drop cur := by
  intro ms
  induction ms with
  | nil =>
    intro cur _
    by_cases h : cur < text.length
    · simp [buildParts, h, contentConcat, contentOf]
    · simp only [buildParts, if_neg h, contentConcat]
      exact (List.drop_eq_nil_of_le (by omega)).symm
  | cons hd tl ih =>
    obtain ⟨i, c⟩ := hd
    intro cur hv
    obtain ⟨hci, hcl, hceq, hvrest⟩ := hv
    have hrest := ih (i + c.length) hvrest
    have key : text.drop cur =
        (text.drop cur).take (i - cur) ++ (c ++ text.drop (i + c.length)) := by
      rw [← drop_eq_content_append text i c hceq, ← drop_eq_take_append text cur i hci]
    by_cases h : cur < i
    · simp only [buildParts, if_pos h, contentConcat_append, contentConcat,
        contentOf, List.append_nil, hrest]
      exact key.symm
    · have hcur : cur = i := Nat.le_antisymm hci (Nat.le_of_not_lt h)
      subst hcur
      simp only [buildParts, if_neg h, List.nil_append, contentConcat,
        contentOf, hrest]
      exact (drop_eq_content_append text cur c hceq).symm

theorem buildParts_text_ne_nil (text : List Char)
    (defs : List (List Char × List Char)) :
    ∀ (ms : List (Nat × List Char)) (cur : Nat),
      validFrom text cur ms →
      ∀ c : List Char, Segment.text c ∈ buildParts text defs ms cur → c ≠ [] := by
  intro ms
  induction ms with
  | nil =>
    intro cur _ c hc
    by_cases h : cur < text.length
    · simp only [buildParts, if_pos h, List.mem_singleton, Segment.text.injEq] at hc
      subst hc
      intro hnil
      rw [List.drop_eq_nil_iff] at hnil
      omega
    · simp [buildParts, if_neg h] at hc
  | cons hd tl ih =>
    obtain ⟨i, cc⟩ := hd
    intro cur hv c hc
    obtain ⟨hci, hcl, hceq, hvrest⟩ := hv
    by_cases h : cur < i
    · simp only [buildParts, if_pos h, List.singleton_append, List.mem_cons,
        Segment.text.injEq] at hc
      rcases hc with hc | hc | hc
      · subst hc
        intro hnil
        rw [List.take_eq_nil_iff, List.drop_eq_nil_iff] at hnil
        omega
      · exact absurd hc (by simp)
      · exact ih (i + cc.length) hvrest c hc
    · simp only [buildParts, if_neg h, List.nil_append, List.mem_cons] at hc
      rcases hc with hc | hc
      · exact absurd hc (by simp)
      · exact ih (i + cc.length) hvrest c hc

/-- C1: coverage — for every input text and definitions map, concatenating
the `content` fields of all returned segments, in order, yields exactly the
original text: the segments cover the text with no gaps and no overlaps. -/
theorem c1_coverage (text : List Char) (defs : List (List Char × List Char)) :
    contentConcat (processContent text defs) = text := by
  by_cases h : text.isEmpty = true
  · rw [processContent, if_pos h, List.isEmpty_iff.mp h]
    rfl
  · rw [processContent, if_neg h]
    have hv : validFrom text 0
        (scan text (alternation (sortByLenDesc (defs.map Prod.fst)))) :=
      scanAux_valid text _ _ 0
    rw [buildParts_concat text defs _ 0 hv]
    exact List.drop_zero text

/-- C10: every plain-text segment in the output has non-empty content —
plain segments are emitted only for a strictly positive gap before a match
or strictly positive trailing text after the last match. -/
theorem c10_plain_nonempty (text : List Char) (defs : List (List Char × List Char))
    (c : List Char) (h : Segment.text c ∈ processContent text defs) : c ≠ [] := by
  by_cases he : text.isEmpty = true
  · rw [processContent, if_pos he] at h
    exact absurd h (by simp)
  · rw [processContent, if_neg he] at h
    exact buildParts_text_ne_nil text defs _ 0 (scanAux_valid text _ _ 0) c h

/-- Witness for C10 at a concrete input: highlighting "a b" with the single
term "a" yields a trailing plain segment " b", which is non-empty. -/
theorem c10_plain_nonempty_witness :
    Segment.text (String.toList " b") ∈
        processContent (String.toList "a b")
          [(String.toList "a", String.toList "d")] ∧
      String.toList " b" ≠ [] :=
  ⟨by decide, c10_plain_nonempty (String.toList "a b")
      [(String.toList "a", String.toList "d")] (String.toList " b") (by decide)⟩

/-- C2: with definitions for both "rente" and "rentevaste periode" and text
"de rentevaste periode is belangrijk", candidate terms are sorted longest
first before joining, so the output is exactly one `AnnotatedTerm` segment
with content "rentevaste periode" (carrying its own definition) between two
plain segments — not a segment for "rente" plus plain text. -/
theorem c2_longest_match :
    processContent (String.toList "de rentevaste periode is belangrijk")
      [(String.toList "rente", String.toList "interest"),
       (String.toList "rentevaste periode", String.toList "fixed-rate period")] =
    [Segment.text (String.toList "de "),
     Segment.term (String.toList "rentevaste periode")
       (some (String.toList "fixed-rate period")),
     Segment.text (String.toList " is belangrijk")] := by
  decide

/-- C3 (code bug): with an empty definitions map and the non-empty text
"any text", the highlighter does NOT return a single plain-text segment
holding the whole input: the empty key list is joined into the regex
`\b()\b`, which matches the empty string at every word boundary, so the
output is seven segments — four empty `AnnotatedTerm` segments interleaved
with the fragments "any", " ", "text". -/
theorem c3_empty_defs_not_single_plain :
    processContent (String.toList "any text") [] =
      [Segment.term [] none,
       Segment.text (String.toList "any"),
       Segment.term [] none,
       Segment.text (String.toList " "),
       Segment.term [] none,
       Segment.text (String.toList "text"),
       Segment.term [] none] ∧
    processContent (String.toList "any text") [] ≠
      [Segment.text (String.toList "any text")] := by
  decide

/-- C4: whole-word boundaries — with the single term "rente" and text
"renteaftrek is leuk", the `\b` anchors reject the occurrence of "rente"
embedded in "renteaftrek", so the output is one plain segment and no
`AnnotatedTerm` at all. -/
theorem c4_whole_word :
    processContent (String.toList "renteaftrek is leuk")
      [(String.toList "rente", String.toList "def")] =
    [Segment.text (String.toList "renteaftrek is leuk")] := by
  decide

/-- C5 (code bug): `card.jsx` line 29 joins the raw keys into the pattern
with no escaping, so a key consisting of the regex metacharacter "(" yields
the source `\b(()\b`, whose parentheses do not balance — the pattern cannot
compile (in JS, `new RegExp` throws a SyntaxError), contradicting the claim
that terms are escaped before being embedded. -/
theorem c5_unescaped_key_invalid_pattern :
    patternValid (patternString (sortByLenDesc [String.toList "("])) = false := by
  decide

/-- C6 (code bug): with the empty definitions map and text "any text", the
output contains an `AnnotatedTerm` segment whose content is the empty
string — which matches no supplied term (the map supplies none), violating
the invariant that every `AnnotatedTerm` content matches a supplied term
case-insensitively as a whole word. -/
theorem c6_empty_term_segment :
    Segment.term [] none ∈ processContent (String.toList "any text") [] := by
  decide

/-- C7: case-insensitive matching, case-preserving output — with
definitions mapping "nhg" and text "De NHG garandeert dit.", the output
contains an `AnnotatedTerm` whose content is "NHG" exactly as cased in the
source text and whose definition is the glossary entry looked up under the
lowercased match. -/
theorem c7_case_preserving :
    processContent (String.toList "De NHG garandeert dit.")
      [(String.toList "nhg", String.toList "Nationale Hypotheek Garantie")] =
    [Segment.text (String.toList "De "),
     Segment.term (String.toList "NHG")
       (some (String.toList "Nationale Hypotheek Garantie")),
     Segment.text (String.toList " garandeert dit.")] := by
  decide

/-- C8: for every definitions map, the empty text is falsy, so the
highlighter returns the empty segment sequence. -/
theorem c8_empty_text (defs : List (List Char × List Char)) :
    processContent [] defs = [] := rfl

/-- C9: the highlighter is a deterministic pure function of its two inputs:
any two calls with equal text and equal definitions maps return equal
segment sequences. -/
theorem c9_deterministic (t₁ t₂ : List Char)
    (d₁ d₂ : List (List Char × List Char))
    (ht : t₁ = t₂) (hd : d₁ = d₂) :
    processContent t₁ d₁ = processContent t₂ d₂ := by
  subst ht; subst hd; rfl

/-- Witness for C9 at a concrete input. -/
theorem c9_deterministic_witness :
    processContent (String.toList "a b") [(String.toList "a", String.toList "d")] =
      processContent (String.toList "a b") [(String.toList "a", String.toList "d")] :=
  c9_deterministic _ _ _ _ rfl rfl

end Advisor
